import Mathlib

/-!
Verification of the MEP (multi-expression program) genome library
(`src/mep.rs`): data model, randomized construction, crossover,
self-adaptive mutation and lazy memoized evaluation.

The random source (`rand::Rng` in the source) is modelled as an infinite
stream of naturals together with a position; `gen_range(low, high)` draws
the next stream element, reduces it into `[low, high)`, and advances the
position.  `gen_range` panics in the source when `low >= high`; every
panic is modelled by `Option.none`.
-/

/-- Model of the injected random source: an arbitrary stream of naturals
and the position of the next draw. -/
structure Rng where
  stream : Nat → Nat
  pos : Nat

/-- `rng.gen_range(lo, hi)` of the `rand` crate: a value in `[lo, hi)`,
panicking (`none`) when the range is empty.  Every value of the range is
realised by a suitable stream. -/
def genRange (lo hi : Nat) (r : Rng) : Option (Nat × Rng) :=
  if lo < hi then
    some (lo + r.stream r.pos % (hi - lo), ⟨r.stream, r.pos + 1⟩)
  else
    none

/-- `Opcode<Ins>` of the source: an instruction payload and two operand
addresses into the combined space of program inputs and earlier
operations. -/
structure Opcode (Ins : Type) where
  instruction : Ins
  first : Nat
  second : Nat
deriving DecidableEq, Repr

/-- `Mep<Ins>` of the source. -/
structure Mep (Ins : Type) where
  program : List (Opcode Ins)
  unit_mutate_size : Nat
  crossover_points : Nat
  inputs : Nat
deriving DecidableEq, Repr

/-- Operand generation of `Mep::new`: for the instruction at position
`index` (counting from the given offset), `first` and `second` are both
drawn from `[0, index + inputs)`. -/
def newOps {Ins : Type} (inputs : Nat) : Nat → List Ins → Rng → Option (List (Opcode Ins) × Rng)
  | _, [], r => some ([], r)
  | index, ins :: rest, r =>
    match genRange 0 (index + inputs) r with
    | none => none
    | some (f, r1) =>
      match genRange 0 (index + inputs) r1 with
      | none => none
      | some (s, r2) =>
        match newOps inputs (index + 1) rest r2 with
        | none => none
        | some (ops, r3) => some (⟨ins, f, s⟩ :: ops, r3)

/-- `Mep::new`: builds the program from the instruction iterator, drawing
both operands of the operation at local index `k` from `[0, k + inputs)`. -/
def Mep.new {Ins : Type} (inputs unit_mutate_size crossover_points : Nat)
    (r : Rng) (instructions : List Ins) : Option (Mep Ins × Rng) :=
  match newOps inputs 0 instructions r with
  | none => none
  | some (ops, r') => some (⟨ops, unit_mutate_size, crossover_points, inputs⟩, r')

/-- The structural invariant: every operation at local index `k`
references only addresses below `inputs + k`. -/
def Acyclic {Ins : Type} (m : Mep Ins) : Prop :=
  ∀ k op, m.program[k]? = some op → op.first < m.inputs + k ∧ op.second < m.inputs + k

/-- Executable helper for `Acyclic`: checks the operand bounds of every
operation, `k` being the local index of the first one. -/
def opsCheck {Ins : Type} (inputs : Nat) : Nat → List (Opcode Ins) → Bool
  | _, [] => true
  | k, op :: rest =>
    (decide (op.first < inputs + k) && decide (op.second < inputs + k)) && opsCheck inputs (k + 1) rest

/-- Executable form of `Acyclic`. -/
def acyclicCheck {Ins : Type} (m : Mep Ins) : Bool :=
  opsCheck m.inputs 0 m.program

/-! ## Crossover (`Mep::mate`) -/

/-- The crossover-point draws of `mate`: `c` draws from `[0, n)`, in draw
order (the Rust iterator `(0..c).map(|_| rng.gen_range(0, n))` is pulled
left to right by the fold that builds the `BTreeSet`). -/
def drawPoints (n : Nat) : Nat → Rng → Option (List Nat × Rng)
  | 0, r => some ([], r)
  | c + 1, r =>
    match genRange 0 n r with
    | none => none
    | some (p, r1) =>
      match drawPoints n c r1 with
      | none => none
      | some (ps, r2) => some (p :: ps, r2)

/-- Insertion into a strictly ascending list, dropping duplicates: one
`BTreeSet::insert` of the source's fold. -/
def btreeInsert (x : Nat) : List Nat → List Nat
  | [] => [x]
  | y :: ys =>
    if x < y then x :: y :: ys
    else if x = y then y :: ys
    else y :: btreeInsert x ys

/-- The ordered duplicate-free cut-point set built by the source's
`fold(BTreeSet::new(), ...)` over the drawn points chained with the
sentinel `n`. -/
def cutSet (ps : List Nat) : List Nat :=
  ps.foldl (fun s i => btreeInsert i s) []

/-- `program[a..b]` on a list: the Rust slice of a contiguous range
(in `mate` the bounds always satisfy `a ≤ b ≤ program.len()`). -/
def sliceRange {α : Type} (a b : Nat) (l : List α) : List α :=
  (l.take b).drop a

/-- The child program assembly of `mate`: the fusion of the source's
`scan` (turning the ascending cut points into consecutive ranges
`prev..x`), `enumerate`, and `flat_map` (even-indexed ranges sliced from
parent 0, odd-indexed ranges from parent 1). -/
def assemble {Ins : Type} (prog0 prog1 : List (Opcode Ins)) : Nat → Nat → List Nat → List (Opcode Ins)
  | _, _, [] => []
  | idx, prev, x :: xs =>
    sliceRange prev x (if idx % 2 = 0 then prog0 else prog1) ++
      assemble prog0 prog1 (idx + 1) x xs

/-- The adaptive-parameter blend of `mate`: `if a < b { gen_range(a, b + 1) }
else { gen_range(b, a + 1) }`. -/
def blendRange (a b : Nat) (r : Rng) : Option (Nat × Rng) :=
  if a < b then genRange a (b + 1) r else genRange b (a + 1) r

/-- `Mep::mate`.  The `assert!` on equal input arities is modelled by
`none`; the draws happen in source order: crossover-point count, the
points themselves, then the `unit_mutate_size` blend and the
`crossover_points` blend. -/
def Mep.mate {Ins : Type} (p0 p1 : Mep Ins) (r : Rng) : Option (Mep Ins × Rng) :=
  if p0.inputs = p1.inputs then
    match genRange 1 (min p0.program.length p1.program.length / 2) r with
    | none => none
    | some (c, r1) =>
      match drawPoints (min p0.program.length p1.program.length) c r1 with
      | none => none
      | some (ps, r2) =>
        match blendRange p0.unit_mutate_size p1.unit_mutate_size r2 with
        | none => none
        | some (u, r3) =>
          match blendRange p0.crossover_points p1.crossover_points r3 with
          | none => none
          | some (cp, r4) =>
            some (⟨assemble p0.program p1.program 0 0
                     (cutSet (ps ++ [min p0.program.length p1.program.length])),
                   u, cp, p0.inputs⟩, r4)
  else
    none

/-! ## Mutation (`Mep::mutate`) -/

/-- One adaptive-parameter toggle of `mutate`: when the draw `d` from
`[0, unit_mutate_size)` hit 0, flip a coin (`gen_range(0, 2)`) and move
the parameter up or down by 1, the decrement clamped above 1. -/
def paramStep (v d : Nat) (r : Rng) : Option (Nat × Rng) :=
  if d = 0 then
    match genRange 0 2 r with
    | none => none
    | some (coin, r2) =>
      if coin = 0 then some (v + 1, r2)
      else if 1 < v then some (v - 1, r2)
      else some (v, r2)
  else some (v, r)

def mutParams (unit_mutate_size crossover_points : Nat) (r : Rng) : Option (Nat × Nat × Rng) :=
  match genRange 0 unit_mutate_size r with
  | none => none
  | some (d, r1) =>
    match paramStep unit_mutate_size d r1 with
    | none => none
    | some (u, r2) =>
      match genRange 0 u r2 with
      | none => none
      | some (d2, r3) =>
        match paramStep crossover_points d2 r3 with
        | none => none
        | some (cp, r4) => some (u, cp, r4)

/-- The structural-mutation loop of `mutate`: draw a candidate local
index `choice = gen_range(0, len) + gen_range(0, unit_mutate_size)`; stop
when it falls outside the program, otherwise mutate exactly one of the
instruction payload, `first` (resampled from `[0, choice + inputs)`) or
`second`, and repeat.  The loop has no other exit, so it is given fuel;
`none` models both a panic and fuel exhaustion. -/
def mutLoop {Ins : Type} (inputs unit_mutate_size : Nat) (mutator : Ins → Ins) :
    Nat → List (Opcode Ins) → Rng → Option (List (Opcode Ins) × Rng)
  | 0, _, _ => none
  | fuel + 1, prog, r =>
    match genRange 0 prog.length r with
    | none => none
    | some (a, r1) =>
      match genRange 0 unit_mutate_size r1 with
      | none => none
      | some (b, r2) =>
        if a + b < prog.length then
          match prog[a + b]? with
          | none => none
          | some op =>
            match genRange 0 3 r2 with
            | none => none
            | some (kind, r3) =>
              if kind = 0 then
                mutLoop inputs unit_mutate_size mutator fuel
                  (prog.set (a + b) ⟨mutator op.instruction, op.first, op.second⟩) r3
              else if kind = 1 then
                match genRange 0 (a + b + inputs) r3 with
                | none => none
                | some (f, r4) =>
                  mutLoop inputs unit_mutate_size mutator fuel
                    (prog.set (a + b) ⟨op.instruction, f, op.second⟩) r4
              else
                match genRange 0 (a + b + inputs) r3 with
                | none => none
                | some (s, r4) =>
                  mutLoop inputs unit_mutate_size mutator fuel
                    (prog.set (a + b) ⟨op.instruction, op.first, s⟩) r4
        else
          some (prog, r2)

/-- `Mep::mutate`: adaptive-parameter steps, then the structural-mutation
loop.  In-place mutation of the source is modelled by returning the
updated genome. -/
def Mep.mutate {Ins : Type} (m : Mep Ins) (mutator : Ins → Ins) (fuel : Nat) (r : Rng) :
    Option (Mep Ins × Rng) :=
  match mutParams m.unit_mutate_size m.crossover_points r with
  | none => none
  | some (u, cp, r1) =>
    match mutLoop m.inputs u mutator fuel m.program r1 with
    | none => none
    | some (prog, r2) => some (⟨prog, u, cp, m.inputs⟩, r2)

/-- `k` successive `mutate` calls threading the random source. -/
def mutateIter {Ins : Type} (mutator : Ins → Ins) (fuel : Nat) :
    Nat → Mep Ins → Rng → Option (Mep Ins × Rng)
  | 0, m, r => some (m, r)
  | k + 1, m, r =>
    match Mep.mutate m mutator fuel r with
    | none => none
    | some (m', r') => mutateIter mutator fuel k m' r'

/-! ## Evaluation (`Mep::execute` and `ResultIterator::next`) -/

/-- The per-call evaluation state: the memo buffer (`buff`) and, for the
memoization claims, the trace of global addresses at which the reduction
function (`processor`) has been invoked, in invocation order. -/
structure EvalSt (Param : Type) where
  buff : List (Option Param)
  calls : List Nat
deriving DecidableEq, Repr

/-- The recursive closure `op_solved` of `ResultIterator::next`,
transcribed with explicit state and fuel (the source recursion has no
structural termination measure).  Every panic — an out-of-bounds read of
the inputs slice, of the memo buffer, or of `program` (the source indexes
`self.mep.program[i]` with the *global* address `i`) — and fuel
exhaustion is `none`; the state records the processor invocations made
before the failure. -/
def opSolved {Ins Param : Type} (m : Mep Ins) (inputsL : List Param)
    (processor : Ins → Param → Param → Param) :
    Nat → Nat → EvalSt Param → Option Param × EvalSt Param
  | 0, _, st => (none, st)
  | fuel + 1, i, st =>
    if i < m.inputs then
      match inputsL[i]? with
      | none => (none, st)
      | some v => (some v, st)
    else
      match st.buff[i - m.inputs]? with
      | none => (none, st)
      | some (some x) => (some x, st)
      | some none =>
        match m.program[i]? with
        | none => (none, st)
        | some op =>
          match opSolved m inputsL processor fuel op.first st with
          | (none, st1) => (none, st1)
          | (some v1, st1) =>
            match opSolved m inputsL processor fuel op.second st1 with
            | (none, st2) => (none, st2)
            | (some v2, st2) =>
              let result := processor op.instruction v1 v2
              (some result, ⟨st2.buff.set (i - m.inputs) (some result), st2.calls ++ [i]⟩)

/-- The reversed range of global output addresses, `(len + inputs -
outputs .. len + inputs).rev()` of `execute`. -/
def solveIter {Ins : Type} (m : Mep Ins) (outputs : Nat) : List Nat :=
  (List.range' (m.program.length + m.inputs - outputs) outputs).reverse

/-- The lazy result sequence of `execute`, before any element is
demanded. -/
structure ResultIterator (Ins Param : Type) where
  mep : Mep Ins
  buff : List (Option Param)
  solve : List Nat
  inputsL : List Param

/-- `Mep::execute`: checks `outputs <= program.len()` (the `assert!`,
modelled by `none`) and builds the iterator with a fresh all-`None` memo
buffer. -/
def Mep.execute {Ins Param : Type} (m : Mep Ins) (inputsL : List Param) (outputs : Nat) :
    Option (ResultIterator Ins Param) :=
  if outputs ≤ m.program.length then
    some ⟨m, List.replicate m.program.length none, solveIter m outputs, inputsL⟩
  else
    none

/-- Driving the iterator: each `next` pulls the next global address from
`solve_iter` and runs `op_solved` on it; a panic (`none`) aborts the
sequence, keeping the state reached so far. -/
def runIter {Ins Param : Type} (m : Mep Ins) (inputsL : List Param)
    (processor : Ins → Param → Param → Param) (fuel : Nat) :
    List Nat → EvalSt Param → Option (List Param) × EvalSt Param
  | [], st => (some [], st)
  | i :: rest, st =>
    match opSolved m inputsL processor fuel i st with
    | (none, st1) => (none, st1)
    | (some v, st1) =>
      match runIter m inputsL processor fuel rest st1 with
      | (none, st2) => (none, st2)
      | (some vs, st2) => (some (v :: vs), st2)

/-- A whole evaluation call: `execute` followed by exhausting the result
sequence. -/
def executeRun {Ins Param : Type} (m : Mep Ins) (inputsL : List Param) (outputs : Nat)
    (processor : Ins → Param → Param → Param) (fuel : Nat) :
    Option (List Param) × EvalSt Param :=
  match Mep.execute m inputsL outputs with
  | none => (none, ⟨[], []⟩)
  | some it => runIter m inputsL processor fuel it.solve ⟨it.buff, []⟩

/-- Modelled from the spec (§4.4), for comparison with `opSolved`: the
evaluation rule for a global address `i` looks up the *operation at local
index `i - inputs_len`* — where `opSolved`, following the source, reads
`program[i]`.  Everything else is transcribed identically. -/
def specOpSolved {Ins Param : Type} (m : Mep Ins) (inputsL : List Param)
    (processor : Ins → Param → Param → Param) :
    Nat → Nat → EvalSt Param → Option Param × EvalSt Param
  | 0, _, st => (none, st)
  | fuel + 1, i, st =>
    if i < m.inputs then
      match inputsL[i]? with
      | none => (none, st)
      | some v => (some v, st)
    else
      match st.buff[i - m.inputs]? with
      | none => (none, st)
      | some (some x) => (some x, st)
      | some none =>
        match m.program[i - m.inputs]? with
        | none => (none, st)
        | some op =>
          match specOpSolved m inputsL processor fuel op.first st with
          | (none, st1) => (none, st1)
          | (some v1, st1) =>
            match specOpSolved m inputsL processor fuel op.second st1 with
            | (none, st2) => (none, st2)
            | (some v2, st2) =>
              let result := processor op.instruction v1 v2
              (some result, ⟨st2.buff.set (i - m.inputs) (some result), st2.calls ++ [i]⟩)

/-- Modelled from the spec: driving the result sequence under the spec's
evaluation rule. -/
def specRunIter {Ins Param : Type} (m : Mep Ins) (inputsL : List Param)
    (processor : Ins → Param → Param → Param) (fuel : Nat) :
    List Nat → EvalSt Param → Option (List Param) × EvalSt Param
  | [], st => (some [], st)
  | i :: rest, st =>
    match specOpSolved m inputsL processor fuel i st with
    | (none, st1) => (none, st1)
    | (some v, st1) =>
      match specRunIter m inputsL processor fuel rest st1 with
      | (none, st2) => (none, st2)
      | (some vs, st2) => (some (v :: vs), st2)

/-- Modelled from the spec: a whole evaluation call under the spec's
local-index evaluation rule. -/
def specExecuteRun {Ins Param : Type} (m : Mep Ins) (inputsL : List Param) (outputs : Nat)
    (processor : Ins → Param → Param → Param) (fuel : Nat) :
    Option (List Param) × EvalSt Param :=
  match Mep.execute m inputsL outputs with
  | none => (none, ⟨[], []⟩)
  | some it => specRunIter m inputsL processor fuel it.solve ⟨it.buff, []⟩

/-- The memoization invariant of one evaluation call: the processor-call
trace holds no duplicates, and a global address appears in it exactly
when the memo slot at its local index is populated. -/
def EvalInv {Ins Param : Type} (m : Mep Ins) (st : EvalSt Param) : Prop :=
  st.calls.Nodup ∧
  ∀ j, j ∈ st.calls ↔ (m.inputs ≤ j ∧ ∃ v, st.buff[j - m.inputs]? = some (some v))

/-! ## Theorems -/

theorem genRange_lt {lo hi : Nat} {r : Rng} {v : Nat} {r' : Rng}
    (h : genRange lo hi r = some (v, r')) : v < hi := by
  unfold genRange at h
  split at h
  · rename_i hlt
    injection h with h1
    injection h1 with hv hr
    subst hv
    have := Nat.mod_lt (r.stream r.pos) (Nat.sub_pos_of_lt hlt)
    omega
  · exact absurd h (by simp)

theorem genRange_le {lo hi : Nat} {r : Rng} {v : Nat} {r' : Rng}
    (h : genRange lo hi r = some (v, r')) : lo ≤ v := by
  unfold genRange at h
  split at h
  · injection h with h1
    injection h1 with hv hr
    subst hv
    exact Nat.le_add_right _ _
  · exact absurd h (by simp)

theorem genRange_isSome_of_lt {lo hi : Nat} (r : Rng) (h : lo < hi) :
    genRange lo hi r = some (lo + r.stream r.pos % (hi - lo), ⟨r.stream, r.pos + 1⟩) := by
  unfold genRange
  simp [h]

theorem genRange_eq_none {lo hi : Nat} {r : Rng} (h : ¬ lo < hi) :
    genRange lo hi r = none := by
  unfold genRange
  simp [h]

theorem blendRange_le {a b : Nat} {r : Rng} {v : Nat} {r' : Rng}
    (h : blendRange a b r = some (v, r')) : min a b ≤ v ∧ v ≤ max a b := by
  unfold blendRange at h
  split at h
  · have h1 := genRange_le h
    have h2 := genRange_lt h
    constructor
    · exact le_trans (Nat.min_le_left a b) h1
    · exact le_trans (by omega) (Nat.le_max_right a b)
  · have h1 := genRange_le h
    have h2 := genRange_lt h
    constructor
    · exact le_trans (Nat.min_le_right a b) h1
    · exact le_trans (by omega) (Nat.le_max_left a b)

theorem blendRange_total (a b : Nat) (r : Rng) :
    blendRange a b r = some ((if a < b then a else b) + r.stream r.pos % ((if a < b then b else a) + 1 - (if a < b then a else b)), ⟨r.stream, r.pos + 1⟩) := by
  unfold blendRange
  split
  · rw [genRange_isSome_of_lt _ (by omega)]
  · rw [genRange_isSome_of_lt _ (by omega)]

theorem btreeInsert_mem {x y : Nat} {l : List Nat} :
    y ∈ btreeInsert x l ↔ y = x ∨ y ∈ l := by
  induction l with
  | nil => simp [btreeInsert]
  | cons a l ih =>
    unfold btreeInsert
    split
    · simp
    · split
      · rename_i hlt heq
        subst heq
        simp only [List.mem_cons]
        tauto
      · simp only [List.mem_cons, ih]
        tauto

theorem btreeInsert_pairwise {x : Nat} {l : List Nat} (h : l.Pairwise (· < ·)) :
    (btreeInsert x l).Pairwise (· < ·) := by
  induction l with
  | nil => simp [btreeInsert]
  | cons a l ih =>
    unfold btreeInsert
    split
    · rename_i hlt
      rw [List.pairwise_cons]
      refine ⟨?_, h⟩
      intro b hb
      rcases List.mem_cons.mp hb with hb | hb
      · omega
      · exact lt_trans hlt ((List.pairwise_cons.mp h).1 b hb)
    · split
      · exact h
      · rename_i h1 h2
        rw [List.pairwise_cons] at h ⊢
        refine ⟨?_, ih h.2⟩
        intro b hb
        rcases btreeInsert_mem.mp hb with hb | hb
        · omega
        · exact h.1 b hb

theorem cutSet_foldl_pairwise (ps : List Nat) :
    ∀ acc : List Nat, acc.Pairwise (· < ·) →
      (ps.foldl (fun s i => btreeInsert i s) acc).Pairwise (· < ·) := by
  induction ps with
  | nil => intro acc h; exact h
  | cons p ps ih => intro acc h; exact ih _ (btreeInsert_pairwise h)

theorem cutSet_foldl_mem (ps : List Nat) :
    ∀ (acc : List Nat) (y : Nat),
      (y ∈ ps.foldl (fun s i => btreeInsert i s) acc ↔ y ∈ acc ∨ y ∈ ps) := by
  induction ps with
  | nil => simp
  | cons p ps ih =>
    intro acc y
    rw [List.foldl_cons, ih, btreeInsert_mem]
    simp only [List.mem_cons]
    tauto

theorem cutSet_pairwise (ps : List Nat) : (cutSet ps).Pairwise (· < ·) :=
  cutSet_foldl_pairwise ps [] (by simp)

theorem cutSet_mem (ps : List Nat) (y : Nat) : y ∈ cutSet ps ↔ y ∈ ps := by
  unfold cutSet
  rw [cutSet_foldl_mem]
  simp

theorem getLast?_mem_list {l : List Nat} {a : Nat} (h : l.getLast? = some a) : a ∈ l := by
  obtain ⟨hne, heq⟩ := List.mem_getLast?_eq_getLast (show a ∈ l.getLast? from by simp [Option.mem_def, h])
  rw [heq]
  exact List.getLast_mem hne

theorem sorted_getLast?_eq {l : List Nat} {y : Nat} (hp : l.Pairwise (· < ·))
    (hy : y ∈ l) (hub : ∀ x ∈ l, x ≤ y) : l.getLast? = some y := by
  induction l with
  | nil => cases hy
  | cons a l ih =>
    cases l with
    | nil =>
      have : y = a := by simpa using hy
      simp [this]
    | cons b l' =>
      rw [List.getLast?_cons_cons]
      have hhead := (List.pairwise_cons.mp hp).1
      refine ih hp.of_cons ?_ ?_
      · rcases List.mem_cons.mp hy with hya | hyt
        · exfalso
          have hb := hub b (by simp)
          have := hhead b (by simp)
          omega
        · exact hyt
      · intro x hx
        exact hub x (List.mem_cons_of_mem a hx)

theorem drawPoints_lt {n : Nat} :
    ∀ {c : Nat} {r : Rng} {ps : List Nat} {r' : Rng},
      drawPoints n c r = some (ps, r') → ∀ x ∈ ps, x < n := by
  intro c
  induction c with
  | zero =>
    intro r ps r' h x hx
    unfold drawPoints at h
    injection h with h1
    injection h1 with hps hr
    subst hps
    cases hx
  | succ c ih =>
    intro r ps r' h x hx
    unfold drawPoints at h
    split at h
    · exact absurd h (by simp)
    · rename_i p r1 hp
      split at h
      · exact absurd h (by simp)
      · rename_i ps1 r2 hps1
        injection h with h1
        injection h1 with hps hr
        subst hps
        rcases List.mem_cons.mp hx with hx | hx
        · subst hx
          exact genRange_lt hp
        · exact ih hps1 x hx

theorem drawPoints_total {n : Nat} (hn : 0 < n) :
    ∀ (c : Nat) (r : Rng), ∃ ps r', drawPoints n c r = some (ps, r') := by
  intro c
  induction c with
  | zero => intro r; exact ⟨[], r, rfl⟩
  | succ c ih =>
    intro r
    obtain ⟨ps, r', hps⟩ := ih ⟨r.stream, r.pos + 1⟩
    refine ⟨r.stream r.pos % n :: ps, r', ?_⟩
    unfold drawPoints
    rw [genRange_isSome_of_lt r (by omega)]
    simp only [Nat.zero_add, Nat.sub_zero, hps]

theorem sliceRange_length {α : Type} {a b : Nat} {l : List α}
    (hab : a ≤ b) (hbl : b ≤ l.length) : (sliceRange a b l).length = b - a := by
  unfold sliceRange
  simp only [List.length_drop, List.length_take]
  omega

theorem sliceRange_getElem? {α : Type} {a b j : Nat} {l : List α}
    (hj : j < b - a) : (sliceRange a b l)[j]? = l[a + j]? := by
  unfold sliceRange
  rw [List.getElem?_drop, List.getElem?_take]
  simp [show a + j < b by omega]

theorem assemble_length {Ins : Type} (prog0 prog1 : List (Opcode Ins)) :
    ∀ (cuts : List Nat) (idx prev L : Nat), cuts.getLast? = some L →
      cuts.Pairwise (· < ·) →
      (∀ x ∈ cuts, prev ≤ x ∧ x ≤ prog0.length ∧ x ≤ prog1.length) →
      (assemble prog0 prog1 idx prev cuts).length = L - prev := by
  intro cuts
  induction cuts with
  | nil => intro idx prev L h; simp at h
  | cons x xs ih =>
    intro idx prev L hL hp hb
    unfold assemble
    rw [List.length_append]
    have hx := hb x (by simp)
    have hslice : (sliceRange prev x (if idx % 2 = 0 then prog0 else prog1)).length = x - prev := by
      split
      · exact sliceRange_length hx.1 hx.2.1
      · exact sliceRange_length hx.1 hx.2.2
    cases xs with
    | nil =>
      have : L = x := by
        simp at hL
        omega
      subst this
      rw [hslice]
      simp [assemble]
    | cons y ys =>
      rw [List.getLast?_cons_cons] at hL
      have hbx : ∀ z ∈ y :: ys, x ≤ z ∧ z ≤ prog0.length ∧ z ≤ prog1.length := by
        intro z hz
        have h1 := (List.pairwise_cons.mp hp).1 z hz
        have h2 := hb z (List.mem_cons_of_mem x hz)
        exact ⟨le_of_lt h1, h2.2.1, h2.2.2⟩
      rw [hslice, ih (idx + 1) x L hL hp.of_cons hbx]
      have hxL : x < L := (List.pairwise_cons.mp hp).1 L (getLast?_mem_list hL)
      omega

theorem assemble_getElem? {Ins : Type} (prog0 prog1 : List (Opcode Ins)) :
    ∀ (cuts : List Nat) (idx prev L : Nat), cuts.getLast? = some L →
      cuts.Pairwise (· < ·) →
      (∀ x ∈ cuts, prev ≤ x ∧ x ≤ prog0.length ∧ x ≤ prog1.length) →
      ∀ p, prev ≤ p → p < L →
        (assemble prog0 prog1 idx prev cuts)[p - prev]? =
          (if (idx + cuts.countP (fun c => decide (c ≤ p))) % 2 = 0 then prog0 else prog1)[p]? := by
  intro cuts
  induction cuts with
  | nil => intro idx prev L h; simp at h
  | cons x xs ih =>
    intro idx prev L hL hp hb p hpp hpL
    unfold assemble
    have hx := hb x (by simp)
    have hslice : (sliceRange prev x (if idx % 2 = 0 then prog0 else prog1)).length = x - prev := by
      split
      · exact sliceRange_length hx.1 hx.2.1
      · exact sliceRange_length hx.1 hx.2.2
    by_cases hcase : p < x
    · rw [List.getElem?_append, hslice, if_pos (by omega), sliceRange_getElem? (by omega),
        show prev + (p - prev) = p from by omega]
      have hcount : (x :: xs).countP (fun c => decide (c ≤ p)) = 0 := by
        apply List.countP_eq_zero.mpr
        intro a ha
        rcases List.mem_cons.mp ha with ha | ha
        · subst ha
          simp
          omega
        · have := (List.pairwise_cons.mp hp).1 a ha
          simp
          omega
      rw [hcount]
      simp
    · push_neg at hcase
      cases xs with
      | nil =>
        have : L = x := by
          simp at hL
          omega
        omega
      | cons y ys =>
        rw [List.getElem?_append_right (by rw [hslice]; omega), hslice,
          show p - prev - (x - prev) = p - x from by omega]
        rw [List.getLast?_cons_cons] at hL
        have hbx : ∀ z ∈ y :: ys, x ≤ z ∧ z ≤ prog0.length ∧ z ≤ prog1.length := by
          intro z hz
          have h1 := (List.pairwise_cons.mp hp).1 z hz
          have h2 := hb z (List.mem_cons_of_mem x hz)
          exact ⟨le_of_lt h1, h2.2.1, h2.2.2⟩
        rw [ih (idx + 1) x L hL hp.of_cons hbx p hcase hpL]
        have hcnt : (x :: y :: ys).countP (fun c => decide (c ≤ p)) =
            (y :: ys).countP (fun c => decide (c ≤ p)) + 1 :=
          List.countP_cons_of_pos _ _ (by simp [hcase])
        rw [hcnt]
        rw [show idx + ((y :: ys).countP (fun c => decide (c ≤ p)) + 1) =
              idx + 1 + (y :: ys).countP (fun c => decide (c ≤ p)) from by omega]

theorem genRange_some_lt {lo hi : Nat} {r : Rng} {x : Nat × Rng}
    (h : genRange lo hi r = some x) : lo < hi := by
  unfold genRange at h
  split at h
  · assumption
  · exact absurd h (by simp)

theorem paramStep_bounds {v d : Nat} {r : Rng} {v' : Nat} {r' : Rng}
    (h : paramStep v d r = some (v', r')) :
    (1 ≤ v → 1 ≤ v') ∧ v' ≤ v + 1 ∧ v ≤ v' + 1 := by
  unfold paramStep at h
  split at h
  · split at h
    · exact absurd h (by simp)
    · split at h
      · injection h with h1
        injection h1 with hv hr
        omega
      · split at h
        · injection h with h1
          injection h1 with hv hr
          omega
        · injection h with h1
          injection h1 with hv hr
          omega
  · injection h with h1
    injection h1 with hv hr
    omega

/-! ## Claims -/

/-- Claim C1.  The claim is right about the intended evaluation rule and
the code is wrong: `ResultIterator::next` fetches `self.mep.program[i]`
at the *global* address `i` while its memo buffer is indexed by the local
`i - inputs`.  On the genome with one input, one operation
`{instruction 0, first 0, second 0}`, input slice `[5]`, one requested
output and addition as the reduction, the first demanded output reads
`program[1]`, out of bounds: the call panics with no value produced and
no reduction call made, where the claim (and the spec's local-index
rule, `specExecuteRun`) yields the single value `reduce(0, 5, 5) = 10`. -/
theorem execute_global_index_bug :
    executeRun (⟨[⟨0, 0, 0⟩], 1, 1, 1⟩ : Mep Nat) [5] 1 (fun _ a b => a + b) 10 =
      (none, ⟨[none], []⟩) ∧
    (specExecuteRun (⟨[⟨0, 0, 0⟩], 1, 1, 1⟩ : Mep Nat) [5] 1 (fun _ a b => a + b) 10).1 =
      some [10] :=
  ⟨rfl, rfl⟩

/-- Claim C5.  Requesting more outputs than there are operations fails
before any evaluation begins: `execute` yields no iterator, and the whole
call produces no value and records no reduction-function invocation. -/
theorem execute_insufficient_operations {Ins Param : Type} (m : Mep Ins)
    (inputsL : List Param) (outputs : Nat)
    (processor : Ins → Param → Param → Param) (fuel : Nat)
    (h : m.program.length < outputs) :
    Mep.execute m inputsL outputs = (none : Option (ResultIterator Ins Param)) ∧
    executeRun m inputsL outputs processor fuel = (none, ⟨[], []⟩) := by
  have hx : Mep.execute m inputsL outputs = (none : Option (ResultIterator Ins Param)) := by
    unfold Mep.execute
    simp
    omega
  refine ⟨hx, ?_⟩
  unfold executeRun
  rw [hx]

theorem execute_insufficient_operations_witness :
    Mep.execute (⟨[⟨0, 0, 0⟩], 1, 1, 1⟩ : Mep Nat) ([5] : List Nat) 2 =
      (none : Option (ResultIterator Nat Nat)) ∧
    executeRun (⟨[⟨0, 0, 0⟩], 1, 1, 1⟩ : Mep Nat) [5] 2 (fun _ a b => a + b) 10 =
      (none, ⟨[], []⟩) :=
  execute_insufficient_operations _ _ _ _ _ (by decide)

/-- Claim C6.  Crossing two genomes of differing input arity fails (the
source's `assert!`, modelled as `none`): no child genome is produced, and
no coercion, truncation or padding of the arities happens. -/
theorem mate_arity_mismatch {Ins : Type} (p0 p1 : Mep Ins) (r : Rng)
    (h : p0.inputs ≠ p1.inputs) : Mep.mate p0 p1 r = none := by
  unfold Mep.mate
  simp [h]

theorem mate_arity_mismatch_witness :
    Mep.mate (⟨[], 1, 1, 2⟩ : Mep Nat) (⟨[], 1, 1, 3⟩ : Mep Nat) ⟨fun _ => 0, 0⟩ = none :=
  mate_arity_mismatch _ _ _ (by decide)

/-- Claim C7.  When `mate` succeeds, the child's `unit_mutate_size`
(the spec's `mutation_intensity`) and `crossover_points` each lie in the
inclusive range spanned by the parents' values, whichever parent holds
the smaller one, and the child's arity is the shared parent arity. -/
theorem mate_blend_in_range {Ins : Type} (p0 p1 : Mep Ins) (r : Rng)
    (child : Mep Ins) (r' : Rng) (h : Mep.mate p0 p1 r = some (child, r')) :
    min p0.unit_mutate_size p1.unit_mutate_size ≤ child.unit_mutate_size ∧
    child.unit_mutate_size ≤ max p0.unit_mutate_size p1.unit_mutate_size ∧
    min p0.crossover_points p1.crossover_points ≤ child.crossover_points ∧
    child.crossover_points ≤ max p0.crossover_points p1.crossover_points ∧
    child.inputs = p0.inputs ∧ child.inputs = p1.inputs := by
  unfold Mep.mate at h
  split at h
  · rename_i harity
    split at h
    · exact absurd h (by simp)
    · rename_i c r1 hc
      split at h
      · exact absurd h (by simp)
      · rename_i ps r2 hps
        split at h
        · exact absurd h (by simp)
        · rename_i u r3 hu
          split at h
          · exact absurd h (by simp)
          · rename_i cp r4 hcp
            injection h with h1
            injection h1 with hchild hr
            subst hchild
            have hu2 := blendRange_le hu
            have hcp2 := blendRange_le hcp
            exact ⟨hu2.1, hu2.2, hcp2.1, hcp2.2, rfl, harity⟩
  · exact absurd h (by simp)

theorem mate_blend_in_range_witness :
    min 2 5 ≤ 2 ∧ (2 : Nat) ≤ max 2 5 ∧ min 3 1 ≤ 1 ∧ (1 : Nat) ≤ max 3 1 ∧
    (1 : Nat) = 1 ∧ (1 : Nat) = 1 :=
  mate_blend_in_range
    (⟨[⟨1, 0, 0⟩, ⟨2, 1, 0⟩, ⟨3, 0, 2⟩, ⟨4, 3, 1⟩], 2, 3, 1⟩ : Mep Nat)
    (⟨[⟨5, 0, 0⟩, ⟨6, 0, 1⟩, ⟨7, 2, 2⟩, ⟨8, 1, 3⟩], 5, 1, 1⟩ : Mep Nat)
    ⟨fun _ => 0, 0⟩
    ⟨[⟨5, 0, 0⟩, ⟨6, 0, 1⟩, ⟨7, 2, 2⟩, ⟨8, 1, 3⟩], 2, 1, 1⟩
    ⟨fun _ => 0, 4⟩ rfl

theorem mutParams_floors {u0 cp0 : Nat} {r : Rng} {u cp : Nat} {r' : Rng}
    (h : mutParams u0 cp0 r = some (u, cp, r')) :
    (1 ≤ u0 → 1 ≤ u) ∧ (1 ≤ cp0 → 1 ≤ cp) ∧
    u ≤ u0 + 1 ∧ u0 ≤ u + 1 ∧ cp ≤ cp0 + 1 ∧ cp0 ≤ cp + 1 := by
  unfold mutParams at h
  split at h
  · exact absurd h (by simp)
  · rename_i d r1 hd
    split at h
    · exact absurd h (by simp)
    · rename_i u' r2 hu
      split at h
      · exact absurd h (by simp)
      · rename_i d2 r3 hd2
        split at h
        · exact absurd h (by simp)
        · rename_i cp' r4 hcp
          injection h with h1
          injection h1 with hu2 h2
          injection h2 with hcp2 hr
          subst hu2
          subst hcp2
          have b1 := paramStep_bounds hu
          have b2 := paramStep_bounds hcp
          exact ⟨b1.1, b2.1, b1.2.1, b1.2.2, b2.2.1, b2.2.2⟩

theorem mutParams_requires_pos {u0 cp0 : Nat} {r : Rng} {x : Nat × Nat × Rng}
    (h : mutParams u0 cp0 r = some x) : 1 ≤ u0 := by
  unfold mutParams at h
  split at h
  · exact absurd h (by simp)
  · rename_i d r1 hd
    exact genRange_some_lt hd

theorem mutLoop_requires_len_pos {Ins : Type} {inputs u : Nat} {mutator : Ins → Ins}
    {fuel : Nat} {prog : List (Opcode Ins)} {r : Rng} {x : List (Opcode Ins) × Rng}
    (h : mutLoop inputs u mutator fuel prog r = some x) : 1 ≤ prog.length := by
  cases fuel with
  | zero => simp [mutLoop] at h
  | succ fuel =>
    simp only [mutLoop] at h
    split at h
    · exact absurd h (by simp)
    · rename_i a r1 ha
      exact genRange_some_lt ha

/-- Claim C10.  `mutate` can return at all only when the genome has at
least one operation and `unit_mutate_size` is at least 1: the very first
structural-loop draw samples `gen_range(0, program.len())` (empty on a
zero-operation genome) and the opening adaptive-parameter draw samples
`gen_range(0, unit_mutate_size)`. -/
theorem mutate_totality_precondition {Ins : Type} (m : Mep Ins) (mutator : Ins → Ins)
    (fuel : Nat) (r : Rng) (p : Mep Ins × Rng)
    (h : Mep.mutate m mutator fuel r = some p) :
    1 ≤ m.program.length ∧ 1 ≤ m.unit_mutate_size := by
  unfold Mep.mutate at h
  split at h
  · exact absurd h (by simp)
  · rename_i u cp r1 hmp
    split at h
    · exact absurd h (by simp)
    · rename_i prog r2 hml
      exact ⟨mutLoop_requires_len_pos hml, mutParams_requires_pos hmp⟩

theorem mutate_totality_precondition_witness :
    1 ≤ ([⟨7, 0, 0⟩] : List (Opcode Nat)).length ∧ 1 ≤ 1 :=
  mutate_totality_precondition (⟨[⟨7, 0, 0⟩], 1, 1, 1⟩ : Mep Nat) (fun x => x + 1) 10
    ⟨fun n => if n < 4 then 0 else 1, 0⟩
    (⟨[⟨7, 0, 0⟩], 2, 2, 1⟩, ⟨fun n => if n < 4 then 0 else 1, 6⟩) rfl

theorem mutate_floors_step {Ins : Type} {m : Mep Ins} {mutator : Ins → Ins}
    {fuel : Nat} {r : Rng} {m' : Mep Ins} {r' : Rng}
    (h : Mep.mutate m mutator fuel r = some (m', r')) :
    (1 ≤ m.unit_mutate_size → 1 ≤ m'.unit_mutate_size) ∧
    (1 ≤ m.crossover_points → 1 ≤ m'.crossover_points) ∧
    m'.unit_mutate_size ≤ m.unit_mutate_size + 1 ∧
    m.unit_mutate_size ≤ m'.unit_mutate_size + 1 ∧
    m'.crossover_points ≤ m.crossover_points + 1 ∧
    m.crossover_points ≤ m'.crossover_points + 1 := by
  unfold Mep.mutate at h
  split at h
  · exact absurd h (by simp)
  · rename_i u cp r1 hmp
    split at h
    · exact absurd h (by simp)
    · rename_i prog r2 hml
      injection h with h1
      injection h1 with hm hr
      subst hm
      exact mutParams_floors hmp

theorem mutateIter_floors {Ins : Type} {mutator : Ins → Ins} {fuel : Nat} :
    ∀ (k : Nat) (m : Mep Ins) (r : Rng) (m' : Mep Ins) (r' : Rng),
      1 ≤ m.unit_mutate_size → 1 ≤ m.crossover_points →
      mutateIter mutator fuel k m r = some (m', r') →
      1 ≤ m'.unit_mutate_size ∧ 1 ≤ m'.crossover_points := by
  intro k
  induction k with
  | zero =>
    intro m r m' r' h1 h2 h
    simp only [mutateIter] at h
    injection h with h3
    injection h3 with hm hr
    subst hm
    exact ⟨h1, h2⟩
  | succ k ih =>
    intro m r m' r' h1 h2 h
    simp only [mutateIter] at h
    split at h
    · exact absurd h (by simp)
    · rename_i m1 r1 hstep
      have hf := mutate_floors_step hstep
      exact ih m1 r1 m' r' (hf.1 h1) (hf.2.1 h2) h

/-- Claim C8.  Starting from `unit_mutate_size ≥ 1` and
`crossover_points ≥ 1`, both parameters stay at least 1 after arbitrarily
many successive `mutate` calls; moreover a single call moves each
parameter by at most 1 in either direction (the decrement clamped at the
floor of 1). -/
theorem mutation_parameter_floors {Ins : Type} (mutator : Ins → Ins) (fuel : Nat) :
    (∀ (k : Nat) (m : Mep Ins) (r : Rng) (m' : Mep Ins) (r' : Rng),
        1 ≤ m.unit_mutate_size → 1 ≤ m.crossover_points →
        mutateIter mutator fuel k m r = some (m', r') →
        1 ≤ m'.unit_mutate_size ∧ 1 ≤ m'.crossover_points) ∧
    (∀ (m : Mep Ins) (r : Rng) (m' : Mep Ins) (r' : Rng),
        Mep.mutate m mutator fuel r = some (m', r') →
        m'.unit_mutate_size ≤ m.unit_mutate_size + 1 ∧
        m.unit_mutate_size ≤ m'.unit_mutate_size + 1 ∧
        m'.crossover_points ≤ m.crossover_points + 1 ∧
        m.crossover_points ≤ m'.crossover_points + 1) :=
  ⟨fun k m r m' r' h1 h2 h => mutateIter_floors k m r m' r' h1 h2 h,
   fun _ _ _ _ h => (mutate_floors_step h).2.2⟩

theorem mutation_parameter_floors_witness :
    ((1 : Nat) ≤ 2 ∧ (1 : Nat) ≤ 2) ∧
    ((2 : Nat) ≤ 1 + 1 ∧ (1 : Nat) ≤ 2 + 1 ∧ (2 : Nat) ≤ 1 + 1 ∧ (1 : Nat) ≤ 2 + 1) :=
  ⟨(mutation_parameter_floors (fun x : Nat => x + 1) 10).1 2
      (⟨[⟨7, 0, 0⟩], 1, 1, 1⟩ : Mep Nat) ⟨fun n => if n < 4 then 0 else 1, 0⟩
      (⟨[⟨7, 0, 0⟩], 2, 2, 1⟩ : Mep Nat) ⟨fun n => if n < 4 then 0 else 1, 10⟩
      (by decide) (by decide) rfl,
   (mutation_parameter_floors (fun x : Nat => x + 1) 10).2
      (⟨[⟨7, 0, 0⟩], 1, 1, 1⟩ : Mep Nat) ⟨fun n => if n < 4 then 0 else 1, 0⟩
      (⟨[⟨7, 0, 0⟩], 2, 2, 1⟩ : Mep Nat) ⟨fun n => if n < 4 then 0 else 1, 6⟩ rfl⟩

/-- Claim C9.  The child's operation sequence does not depend on either
parent's `crossover_points` field: two `mate` runs on parent pairs that
agree on everything except `crossover_points`, consuming the same random
draws, yield children with identical programs (the count of crossover
points is drawn from `[1, n/2)` without consulting the field, and the
field's blend happens after all program draws). -/
theorem mate_program_ignores_crossover_points {Ins : Type}
    (prog0 prog1 : List (Opcode Ins)) (u0 u1 i0 i1 c0 c1 c0' c1' : Nat) (r : Rng) :
    Option.map (fun x => x.1.program)
        (Mep.mate ⟨prog0, u0, c0, i0⟩ ⟨prog1, u1, c1, i1⟩ r) =
      Option.map (fun x => x.1.program)
        (Mep.mate ⟨prog0, u0, c0', i0⟩ ⟨prog1, u1, c1', i1⟩ r) := by
  unfold Mep.mate
  dsimp only
  by_cases harity : i0 = i1
  · rw [if_pos harity, if_pos harity]
    cases hg : genRange 1 (min prog0.length prog1.length / 2) r with
    | none => simp [hg]
    | some cr =>
      obtain ⟨c, r1⟩ := cr
      simp only [hg]
      cases hdp : drawPoints (min prog0.length prog1.length) c r1 with
      | none => simp [hdp]
      | some psr =>
        obtain ⟨ps, r2⟩ := psr
        simp only [hdp]
        cases hbu : blendRange u0 u1 r2 with
        | none => simp [hbu]
        | some ur =>
          obtain ⟨u, r3⟩ := ur
          simp only [hbu]
          rw [blendRange_total c0 c1 r3, blendRange_total c0' c1' r3]
          simp
  · rw [if_neg harity, if_neg harity]

theorem opsCheck_bounds {Ins : Type} {inputs : Nat} :
    ∀ {k : Nat} {ops : List (Opcode Ins)}, opsCheck inputs k ops = true →
      ∀ j op, ops[j]? = some op → op.first < inputs + (k + j) ∧ op.second < inputs + (k + j) := by
  intro k ops
  induction ops generalizing k with
  | nil =>
    intro _ j op hj
    simp at hj
  | cons o rest ih =>
    intro h j op hj
    unfold opsCheck at h
    simp only [Bool.and_eq_true, decide_eq_true_eq] at h
    cases j with
    | zero =>
      simp at hj
      subst hj
      omega
    | succ j =>
      simp only [List.getElem?_cons_succ] at hj
      have := ih h.2 j op hj
      omega

theorem acyclic_of_check {Ins : Type} (m : Mep Ins) (h : acyclicCheck m = true) :
    Acyclic m := by
  intro k op hk
  have := opsCheck_bounds h k op hk
  omega

theorem mate_child {Ins : Type} {p0 p1 : Mep Ins} {r : Rng} {child : Mep Ins} {r' : Rng}
    (h : Mep.mate p0 p1 r = some (child, r')) :
    child.inputs = p0.inputs ∧ p0.inputs = p1.inputs ∧
    child.program.length = min p0.program.length p1.program.length ∧
    ∃ cuts : List Nat, cuts.Pairwise (· < ·) ∧
      min p0.program.length p1.program.length ∈ cuts ∧
      (∀ x ∈ cuts, x ≤ min p0.program.length p1.program.length) ∧
      ∀ p, p < min p0.program.length p1.program.length →
        child.program[p]? =
          (if cuts.countP (fun c => decide (c ≤ p)) % 2 = 0 then p0.program else p1.program)[p]? := by
  unfold Mep.mate at h
  split at h
  case isFalse => exact absurd h (by simp)
  rename_i harity
  split at h
  · exact absurd h (by simp)
  rename_i c r1 hc
  split at h
  · exact absurd h (by simp)
  rename_i ps r2 hps
  split at h
  · exact absurd h (by simp)
  rename_i u r3 hu
  split at h
  · exact absurd h (by simp)
  rename_i cp r4 hcp
  injection h with h1
  injection h1 with hchild hr
  subst hchild
  refine ⟨rfl, harity, ?_, ?_⟩
  on_goal 2 => refine ⟨cutSet (ps ++ [min p0.program.length p1.program.length]), cutSet_pairwise _, (cutSet_mem _ _).mpr (by simp), ?_, ?_⟩
  case _ =>
    have hub : ∀ x ∈ cutSet (ps ++ [min p0.program.length p1.program.length]),
        x ≤ min p0.program.length p1.program.length := by
      intro x hx
      rcases List.mem_append.mp ((cutSet_mem _ _).mp hx) with hx | hx
      · exact le_of_lt (drawPoints_lt hps x hx)
      · simp at hx
        omega
    have hlast : (cutSet (ps ++ [min p0.program.length p1.program.length])).getLast? =
        some (min p0.program.length p1.program.length) :=
      sorted_getLast?_eq (cutSet_pairwise _) ((cutSet_mem _ _).mpr (by simp)) hub
    have hbounds : ∀ x ∈ cutSet (ps ++ [min p0.program.length p1.program.length]),
        0 ≤ x ∧ x ≤ p0.program.length ∧ x ≤ p1.program.length := by
      intro x hx
      have := hub x hx
      refine ⟨Nat.zero_le x, ?_, ?_⟩ <;> omega
    have := assemble_length p0.program p1.program _ 0 0 _ hlast (cutSet_pairwise _) hbounds
    simpa using this
  case _ =>
    intro x hx
    rcases List.mem_append.mp ((cutSet_mem _ _).mp hx) with hx | hx
    · exact le_of_lt (drawPoints_lt hps x hx)
    · simp at hx
      omega
  case _ =>
    intro p hp
    have hub : ∀ x ∈ cutSet (ps ++ [min p0.program.length p1.program.length]),
        x ≤ min p0.program.length p1.program.length := by
      intro x hx
      rcases List.mem_append.mp ((cutSet_mem _ _).mp hx) with hx | hx
      · exact le_of_lt (drawPoints_lt hps x hx)
      · simp at hx
        omega
    have hlast : (cutSet (ps ++ [min p0.program.length p1.program.length])).getLast? =
        some (min p0.program.length p1.program.length) :=
      sorted_getLast?_eq (cutSet_pairwise _) ((cutSet_mem _ _).mpr (by simp)) hub
    have hbounds : ∀ x ∈ cutSet (ps ++ [min p0.program.length p1.program.length]),
        0 ≤ x ∧ x ≤ p0.program.length ∧ x ≤ p1.program.length := by
      intro x hx
      have := hub x hx
      refine ⟨Nat.zero_le x, ?_, ?_⟩ <;> omega
    have := assemble_getElem? p0.program p1.program _ 0 0 _ hlast (cutSet_pairwise _) hbounds p (Nat.zero_le p) hp
    simpa using this

theorem mate_total {Ins : Type} (p0 p1 : Mep Ins) (r : Rng)
    (harity : p0.inputs = p1.inputs)
    (hn : 4 ≤ min p0.program.length p1.program.length) :
    ∃ x, Mep.mate p0 p1 r = some x := by
  have h2 : 1 < min p0.program.length p1.program.length / 2 := by omega
  have hg := genRange_isSome_of_lt r h2
  obtain ⟨ps, r2, hps⟩ := drawPoints_total
    (show 0 < min p0.program.length p1.program.length from by omega)
    (1 + r.stream r.pos % (min p0.program.length p1.program.length / 2 - 1))
    ⟨r.stream, r.pos + 1⟩
  rw [← Option.isSome_iff_exists]
  unfold Mep.mate
  rw [if_pos harity]
  simp only [hg, hps, blendRange_total, Option.isSome_some]

/-- Claim C3.  For parents of equal arity whose shorter operation count
`n` is at least 4 (so the count draw from `[1, n/2)` cannot panic),
`mate` succeeds, the child has exactly `n` operations, and there is an
ascending set of cut points (ending at the sentinel `n`) such that the
child operation at each position `p` is identical to the operation at
the same position `p` of the parent owning the range containing `p` —
parent 0 for even-indexed ranges, parent 1 for odd-indexed ones, with no
renumbering of operand references. -/
theorem mate_length_and_alternation {Ins : Type} (p0 p1 : Mep Ins) (r : Rng)
    (harity : p0.inputs = p1.inputs)
    (hn : 4 ≤ min p0.program.length p1.program.length) :
    ∃ child r', Mep.mate p0 p1 r = some (child, r') ∧
      child.program.length = min p0.program.length p1.program.length ∧
      ∃ cuts : List Nat, cuts.Pairwise (· < ·) ∧
        min p0.program.length p1.program.length ∈ cuts ∧
        (∀ x ∈ cuts, x ≤ min p0.program.length p1.program.length) ∧
        ∀ p, p < min p0.program.length p1.program.length →
          child.program[p]? =
            (if cuts.countP (fun c => decide (c ≤ p)) % 2 = 0 then p0.program else p1.program)[p]? := by
  obtain ⟨⟨child, r'⟩, heq⟩ := mate_total p0 p1 r harity hn
  obtain ⟨hin, hin2, hlen, cuts, h1, h2, h3, h4⟩ := mate_child heq
  exact ⟨child, r', heq, hlen, cuts, h1, h2, h3, h4⟩

theorem mate_length_and_alternation_witness :
    ∃ (child : Mep Nat) (r' : Rng),
      Mep.mate (⟨[⟨1, 0, 0⟩, ⟨2, 1, 0⟩, ⟨3, 0, 2⟩, ⟨4, 3, 1⟩], 2, 3, 1⟩ : Mep Nat)
          (⟨[⟨5, 0, 0⟩, ⟨6, 0, 1⟩, ⟨7, 2, 2⟩, ⟨8, 1, 3⟩], 5, 1, 1⟩ : Mep Nat)
          ⟨fun _ => 0, 0⟩ = some (child, r') ∧
      child.program.length =
        min (⟨[⟨1, 0, 0⟩, ⟨2, 1, 0⟩, ⟨3, 0, 2⟩, ⟨4, 3, 1⟩], 2, 3, 1⟩ : Mep Nat).program.length
          (⟨[⟨5, 0, 0⟩, ⟨6, 0, 1⟩, ⟨7, 2, 2⟩, ⟨8, 1, 3⟩], 5, 1, 1⟩ : Mep Nat).program.length ∧
      ∃ cuts : List Nat, cuts.Pairwise (· < ·) ∧
        min (⟨[⟨1, 0, 0⟩, ⟨2, 1, 0⟩, ⟨3, 0, 2⟩, ⟨4, 3, 1⟩], 2, 3, 1⟩ : Mep Nat).program.length
          (⟨[⟨5, 0, 0⟩, ⟨6, 0, 1⟩, ⟨7, 2, 2⟩, ⟨8, 1, 3⟩], 5, 1, 1⟩ : Mep Nat).program.length ∈ cuts ∧
        (∀ x ∈ cuts, x ≤
          min (⟨[⟨1, 0, 0⟩, ⟨2, 1, 0⟩, ⟨3, 0, 2⟩, ⟨4, 3, 1⟩], 2, 3, 1⟩ : Mep Nat).program.length
            (⟨[⟨5, 0, 0⟩, ⟨6, 0, 1⟩, ⟨7, 2, 2⟩, ⟨8, 1, 3⟩], 5, 1, 1⟩ : Mep Nat).program.length) ∧
        ∀ p, p <
            min (⟨[⟨1, 0, 0⟩, ⟨2, 1, 0⟩, ⟨3, 0, 2⟩, ⟨4, 3, 1⟩], 2, 3, 1⟩ : Mep Nat).program.length
              (⟨[⟨5, 0, 0⟩, ⟨6, 0, 1⟩, ⟨7, 2, 2⟩, ⟨8, 1, 3⟩], 5, 1, 1⟩ : Mep Nat).program.length →
          child.program[p]? =
            (if cuts.countP (fun c => decide (c ≤ p)) % 2 = 0 then
              (⟨[⟨1, 0, 0⟩, ⟨2, 1, 0⟩, ⟨3, 0, 2⟩, ⟨4, 3, 1⟩], 2, 3, 1⟩ : Mep Nat).program
            else
              (⟨[⟨5, 0, 0⟩, ⟨6, 0, 1⟩, ⟨7, 2, 2⟩, ⟨8, 1, 3⟩], 5, 1, 1⟩ : Mep Nat).program)[p]? :=
  mate_length_and_alternation
    (⟨[⟨1, 0, 0⟩, ⟨2, 1, 0⟩, ⟨3, 0, 2⟩, ⟨4, 3, 1⟩], 2, 3, 1⟩ : Mep Nat)
    (⟨[⟨5, 0, 0⟩, ⟨6, 0, 1⟩, ⟨7, 2, 2⟩, ⟨8, 1, 3⟩], 5, 1, 1⟩ : Mep Nat)
    ⟨fun _ => 0, 0⟩ rfl (by decide)

theorem newOps_bounds {Ins : Type} {inputs : Nat} :
    ∀ {instrs : List Ins} {idx : Nat} {r : Rng} {ops : List (Opcode Ins)} {r' : Rng},
      newOps inputs idx instrs r = some (ops, r') →
      ∀ k op, ops[k]? = some op →
        op.first < inputs + idx + k ∧ op.second < inputs + idx + k := by
  intro instrs
  induction instrs with
  | nil =>
    intro idx r ops r' h k op hk
    unfold newOps at h
    injection h with h1
    injection h1 with hops hr
    subst hops
    simp at hk
  | cons i rest ih =>
    intro idx r ops r' h k op hk
    unfold newOps at h
    split at h
    · exact absurd h (by simp)
    rename_i f r1 hf
    split at h
    · exact absurd h (by simp)
    rename_i s r2 hs
    split at h
    · exact absurd h (by simp)
    rename_i ops1 r3 hops1
    injection h with h1
    injection h1 with hops hr
    subst hops
    cases k with
    | zero =>
      simp at hk
      subst hk
      have h1 := genRange_lt hf
      have h2 := genRange_lt hs
      constructor <;> simp <;> omega
    | succ k =>
      simp only [List.getElem?_cons_succ] at hk
      have := ih hops1 k op hk
      omega

theorem new_acyclic {Ins : Type} {inputs u cp : Nat} {r : Rng} {instrs : List Ins}
    {m : Mep Ins} {r' : Rng} (h : Mep.new inputs u cp r instrs = some (m, r')) :
    Acyclic m := by
  unfold Mep.new at h
  split at h
  · exact absurd h (by simp)
  rename_i ops r1 hops
  injection h with h1
  injection h1 with hm hr
  subst hm
  intro k op hk
  have := newOps_bounds hops k op hk
  constructor <;> simp <;> omega

theorem mate_preserves_acyclic {Ins : Type} {p0 p1 : Mep Ins} {r : Rng}
    {child : Mep Ins} {r' : Rng} (h0 : Acyclic p0) (h1 : Acyclic p1)
    (h : Mep.mate p0 p1 r = some (child, r')) : Acyclic child := by
  obtain ⟨hin, hin2, hlen, cuts, hpw, hmem, hub, hpos⟩ := mate_child h
  intro k op hk
  have hklt : k < child.program.length := (List.getElem?_eq_some.mp hk).1
  rw [hlen] at hklt
  have hp := hpos k hklt
  rw [hk] at hp
  rw [hin]
  split at hp
  · have := h0 k op hp.symm
    omega
  · have := h1 k op hp.symm
    rw [hin2]
    omega

theorem inv_set {Ins : Type} {inputs : Nat} {prog : List (Opcode Ins)} {i : Nat}
    {newop : Opcode Ins}
    (hinv : ∀ k op, prog[k]? = some op → op.first < inputs + k ∧ op.second < inputs + k)
    (hnew : newop.first < inputs + i ∧ newop.second < inputs + i) :
    ∀ k op, (prog.set i newop)[k]? = some op →
      op.first < inputs + k ∧ op.second < inputs + k := by
  intro k op hk
  by_cases hki : k = i
  · subst hki
    have hkl : k < prog.length := by
      have := (List.getElem?_eq_some.mp hk).1
      simpa using this
    rw [List.getElem?_set_self' ] at hk
    rw [List.getElem?_eq_getElem hkl] at hk
    simp at hk
    subst hk
    exact hnew
  · rw [List.getElem?_set_ne (fun he => hki he.symm)] at hk
    exact hinv k op hk

theorem mutLoop_preserves {Ins : Type} {inputs u : Nat} {mutator : Ins → Ins} :
    ∀ {fuel : Nat} {prog : List (Opcode Ins)} {r : Rng} {x : List (Opcode Ins) × Rng},
      mutLoop inputs u mutator fuel prog r = some x →
      (∀ k op, prog[k]? = some op → op.first < inputs + k ∧ op.second < inputs + k) →
      ∀ k op, x.1[k]? = some op → op.first < inputs + k ∧ op.second < inputs + k := by
  intro fuel
  induction fuel with
  | zero =>
    intro prog r x h
    simp [mutLoop] at h
  | succ fuel ih =>
    intro prog r x h hinv
    unfold mutLoop at h
    split at h
    · exact absurd h (by simp)
    rename_i a r1 ha
    split at h
    · exact absurd h (by simp)
    rename_i b r2 hb
    split at h
    · rename_i hlt
      split at h
      · exact absurd h (by simp)
      rename_i op0 hop0
      split at h
      · exact absurd h (by simp)
      rename_i kind r3 hkind
      have hbase := hinv (a + b) op0 hop0
      split at h
      · exact ih h (inv_set hinv ⟨hbase.1, hbase.2⟩)
      · split at h
        · split at h
          · exact absurd h (by simp)
          rename_i f r4 hf
          have hflt := genRange_lt hf
          exact ih h (inv_set hinv ⟨by simpa using by omega, by simpa using hbase.2⟩)
        · split at h
          · exact absurd h (by simp)
          rename_i s r4 hs
          have hslt := genRange_lt hs
          exact ih h (inv_set hinv ⟨by simpa using hbase.1, by simpa using by omega⟩)
    · injection h with h1
      subst h1
      exact hinv

theorem mutate_preserves_acyclic {Ins : Type} {m : Mep Ins} {mutator : Ins → Ins}
    {fuel : Nat} {r : Rng} {m' : Mep Ins} {r' : Rng}
    (hm : Acyclic m) (h : Mep.mutate m mutator fuel r = some (m', r')) : Acyclic m' := by
  unfold Mep.mutate at h
  split at h
  · exact absurd h (by simp)
  rename_i u cp r1 hmp
  split at h
  · exact absurd h (by simp)
  rename_i prog r2 hml
  injection h with h1
  injection h1 with hm2 hr
  subst hm2
  intro k op hk
  have := mutLoop_preserves hml hm k op hk
  simp
  omega

/-- Claim C2.  Acyclicity: a genome built by `new`, a child of `mate`
whose parents satisfy the invariant, and the result of `mutate` on a
genome satisfying the invariant, all have every operation at local index
`k` referencing only addresses strictly below `inputs + k`. -/
theorem genome_acyclicity {Ins : Type} :
    (∀ (inputs u cp : Nat) (r : Rng) (instrs : List Ins) (m : Mep Ins) (r' : Rng),
        Mep.new inputs u cp r instrs = some (m, r') → Acyclic m) ∧
    (∀ (p0 p1 : Mep Ins) (r : Rng) (child : Mep Ins) (r' : Rng),
        Acyclic p0 → Acyclic p1 → Mep.mate p0 p1 r = some (child, r') → Acyclic child) ∧
    (∀ (m : Mep Ins) (mutator : Ins → Ins) (fuel : Nat) (r : Rng) (m' : Mep Ins) (r' : Rng),
        Acyclic m → Mep.mutate m mutator fuel r = some (m', r') → Acyclic m') :=
  ⟨fun _ _ _ _ _ _ _ h => new_acyclic h,
   fun _ _ _ _ _ h0 h1 h => mate_preserves_acyclic h0 h1 h,
   fun _ _ _ _ _ _ hm h => mutate_preserves_acyclic hm h⟩

theorem genome_acyclicity_witness :
    Acyclic (⟨[⟨7, 0, 0⟩, ⟨8, 0, 0⟩], 1, 1, 1⟩ : Mep Nat) ∧
    Acyclic (⟨[⟨5, 0, 0⟩, ⟨6, 0, 1⟩, ⟨7, 2, 2⟩, ⟨8, 1, 3⟩], 2, 1, 1⟩ : Mep Nat) ∧
    Acyclic (⟨[⟨7, 0, 0⟩], 2, 2, 1⟩ : Mep Nat) :=
  ⟨(genome_acyclicity.1) 1 1 1 ⟨fun _ => 0, 0⟩ [7, 8]
      (⟨[⟨7, 0, 0⟩, ⟨8, 0, 0⟩], 1, 1, 1⟩ : Mep Nat) ⟨fun _ => 0, 4⟩ rfl,
   (genome_acyclicity.2.1)
      (⟨[⟨1, 0, 0⟩, ⟨2, 1, 0⟩, ⟨3, 0, 2⟩, ⟨4, 3, 1⟩], 2, 3, 1⟩ : Mep Nat)
      (⟨[⟨5, 0, 0⟩, ⟨6, 0, 1⟩, ⟨7, 2, 2⟩, ⟨8, 1, 3⟩], 5, 1, 1⟩ : Mep Nat)
      ⟨fun _ => 0, 0⟩
      (⟨[⟨5, 0, 0⟩, ⟨6, 0, 1⟩, ⟨7, 2, 2⟩, ⟨8, 1, 3⟩], 2, 1, 1⟩ : Mep Nat)
      ⟨fun _ => 0, 4⟩
      (acyclic_of_check _ (by decide)) (acyclic_of_check _ (by decide)) rfl,
   (genome_acyclicity.2.2)
      (⟨[⟨7, 0, 0⟩], 1, 1, 1⟩ : Mep Nat) (fun x => x + 1) 10
      ⟨fun n => if n < 4 then 0 else 1, 0⟩
      (⟨[⟨7, 0, 0⟩], 2, 2, 1⟩ : Mep Nat) ⟨fun n => if n < 4 then 0 else 1, 6⟩
      (acyclic_of_check _ (by decide)) rfl⟩

theorem specOpSolved_inv {Ins Param : Type} {m : Mep Ins} (hacyc : Acyclic m)
    (inputsL : List Param) (processor : Ins → Param → Param → Param) :
    ∀ (fuel : Nat) (i : Nat) (st : EvalSt Param) (res : Option Param) (st' : EvalSt Param),
      specOpSolved m inputsL processor fuel i st = (res, st') → EvalInv m st →
      EvalInv m st' ∧
      (∀ (j : Nat) (v : Param), st.buff[j]? = some (some v) → st'.buff[j]? = some (some v)) ∧
      (∀ j : Nat, i < j + m.inputs → st'.buff[j]? = st.buff[j]?) ∧
      st'.buff.length = st.buff.length := by
  intro fuel
  induction fuel with
  | zero =>
    intro i st res st' h hinv
    unfold specOpSolved at h
    injection h with h1 h2
    subst h2
    exact ⟨hinv, fun j v hv => hv, fun j _ => rfl, rfl⟩
  | succ fuel ih =>
    intro i st res st' h hinv
    unfold specOpSolved at h
    split at h
    · split at h
      · injection h with h1 h2
        subst h2
        exact ⟨hinv, fun j v hv => hv, fun j _ => rfl, rfl⟩
      · injection h with h1 h2
        subst h2
        exact ⟨hinv, fun j v hv => hv, fun j _ => rfl, rfl⟩
    · rename_i hii
      split at h
      · injection h with h1 h2
        subst h2
        exact ⟨hinv, fun j v hv => hv, fun j _ => rfl, rfl⟩
      · injection h with h1 h2
        subst h2
        exact ⟨hinv, fun j v hv => hv, fun j _ => rfl, rfl⟩
      · rename_i hbnone
        split at h
        · injection h with h1 h2
          subst h2
          exact ⟨hinv, fun j v hv => hv, fun j _ => rfl, rfl⟩
        · rename_i op hop
          have hk := hacyc (i - m.inputs) op hop
          have hf : op.first < i := by omega
          have hs : op.second < i := by omega
          split at h
          · rename_i st1 hrec1
            injection h with h1 h2
            subst h2
            have ih1 := ih op.first st none st1 hrec1 hinv
            refine ⟨ih1.1, ih1.2.1, ?_, ih1.2.2.2⟩
            intro j hj
            exact ih1.2.2.1 j (by omega)
          · rename_i v1 st1 hrec1
            split at h
            · rename_i st2 hrec2
              injection h with h1 h2
              subst h2
              have ih1 := ih op.first st (some v1) st1 hrec1 hinv
              have ih2 := ih op.second st1 none st2 hrec2 ih1.1
              refine ⟨ih2.1, ?_, ?_, ?_⟩
              · intro j v hv
                exact ih2.2.1 j v (ih1.2.1 j v hv)
              · intro j hj
                rw [ih2.2.2.1 j (by omega), ih1.2.2.1 j (by omega)]
              · rw [ih2.2.2.2, ih1.2.2.2]
            · rename_i v2 st2 hrec2
              have ih1 := ih op.first st (some v1) st1 hrec1 hinv
              have ih2 := ih op.second st1 (some v2) st2 hrec2 ih1.1
              have hslot1 : st1.buff[i - m.inputs]? = some none := by
                rw [ih1.2.2.1 (i - m.inputs) (by omega)]
                exact hbnone
              have hslot2 : st2.buff[i - m.inputs]? = some none := by
                rw [ih2.2.2.1 (i - m.inputs) (by omega)]
                exact hslot1
              have hnotin : i ∉ st2.calls := by
                intro hmem
                obtain ⟨_, v, hv⟩ := (ih2.1.2 i).mp hmem
                rw [hslot2] at hv
                simp at hv
              have hlt : i - m.inputs < st2.buff.length :=
                (List.getElem?_eq_some.mp hslot2).1
              injection h with h1 h2
              subst h2
              have hset : (st2.buff.set (i - m.inputs)
                  (some (processor op.instruction v1 v2)))[i - m.inputs]? =
                  some (some (processor op.instruction v1 v2)) := by
                rw [List.getElem?_set_self']
                simp [List.getElem?_eq_getElem hlt]
              refine ⟨⟨?_, ?_⟩, ?_, ?_, ?_⟩
              · rw [List.nodup_append]
                refine ⟨ih2.1.1, by simp, ?_⟩
                intro a ha hb
                simp at hb
                subst hb
                exact hnotin ha
              · intro j
                by_cases hji : j = i
                · subst hji
                  simp only [List.mem_append, List.mem_singleton]
                  constructor
                  · intro _
                    exact ⟨by omega, processor op.instruction v1 v2, hset⟩
                  · intro _
                    exact Or.inr trivial
                · simp only [List.mem_append, List.mem_singleton]
                  by_cases hj : m.inputs ≤ j
                  · have hne : i - m.inputs ≠ j - m.inputs := by omega
                    rw [List.getElem?_set_ne hne]
                    constructor
                    · rintro (hmem | hmem)
                      · exact (ih2.1.2 j).mp hmem
                      · exact absurd hmem hji
                    · intro hr
                      exact Or.inl ((ih2.1.2 j).mpr hr)
                  · constructor
                    · rintro (hmem | hmem)
                      · exact absurd ((ih2.1.2 j).mp hmem).1 hj
                      · exact absurd hmem hji
                    · intro hr
                      exact absurd hr.1 hj
              · intro j v hv
                have hv2 := ih2.2.1 j v (ih1.2.1 j v hv)
                have hne : j ≠ i - m.inputs := by
                  intro he
                  subst he
                  rw [hslot2] at hv2
                  simp at hv2
                rw [List.getElem?_set_ne (Ne.symm hne)]
                exact hv2
              · intro j hj
                have hne : i - m.inputs ≠ j := by omega
                rw [List.getElem?_set_ne hne, ih2.2.2.1 j (by omega), ih1.2.2.1 j (by omega)]
              · simp only [List.length_set]
                rw [ih2.2.2.2, ih1.2.2.2]

theorem evalInv_init {Ins Param : Type} (m : Mep Ins) (len : Nat) :
    EvalInv m (⟨List.replicate len (none : Option Param), []⟩ : EvalSt Param) := by
  refine ⟨List.nodup_nil, ?_⟩
  intro j
  simp only [List.not_mem_nil, false_iff]
  rintro ⟨h1, v, hv⟩
  rw [List.getElem?_replicate] at hv
  split at hv
  · exact absurd (Option.some.inj hv) (by simp)
  · exact absurd hv (by simp)

theorem specRunIter_inv {Ins Param : Type} {m : Mep Ins} (hacyc : Acyclic m)
    (inputsL : List Param) (processor : Ins → Param → Param → Param) (fuel : Nat) :
    ∀ (solve : List Nat) (st : EvalSt Param) (res : Option (List Param)) (st' : EvalSt Param),
      specRunIter m inputsL processor fuel solve st = (res, st') → EvalInv m st →
      EvalInv m st' := by
  intro solve
  induction solve with
  | nil =>
    intro st res st' h hinv
    unfold specRunIter at h
    injection h with h1 h2
    subst h2
    exact hinv
  | cons i rest ihr =>
    intro st res st' h hinv
    unfold specRunIter at h
    split at h
    · rename_i st1 hrec
      injection h with h1 h2
      subst h2
      exact (specOpSolved_inv hacyc inputsL processor fuel i st none st1 hrec hinv).1
    · rename_i v st1 hrec
      have hinv1 := (specOpSolved_inv hacyc inputsL processor fuel i st (some v) st1 hrec hinv).1
      split at h
      · rename_i st2 hrest
        injection h with h1 h2
        subst h2
        exact ihr st1 none st2 hrest hinv1
      · rename_i vs st2 hrest
        injection h with h1 h2
        subst h2
        exact ihr st1 (some vs) st2 hrest hinv1

theorem opSolved_eq_spec {Ins Param : Type} {m : Mep Ins} (hinp : m.inputs = 0)
    (inputsL : List Param) (processor : Ins → Param → Param → Param) :
    ∀ (fuel i : Nat) (st : EvalSt Param),
      opSolved m inputsL processor fuel i st = specOpSolved m inputsL processor fuel i st := by
  intro fuel
  induction fuel with
  | zero => intro i st; rfl
  | succ fuel ih =>
    intro i st
    unfold opSolved specOpSolved
    simp only [hinp, Nat.sub_zero, ih]

theorem runIter_eq_spec {Ins Param : Type} {m : Mep Ins} (hinp : m.inputs = 0)
    (inputsL : List Param) (processor : Ins → Param → Param → Param) (fuel : Nat) :
    ∀ (solve : List Nat) (st : EvalSt Param),
      runIter m inputsL processor fuel solve st = specRunIter m inputsL processor fuel solve st := by
  intro solve
  induction solve with
  | nil => intro st; rfl
  | cons i rest ihr =>
    intro st
    unfold runIter specRunIter
    simp only [opSolved_eq_spec hinp inputsL processor fuel, ihr]

theorem executeRun_eq_spec {Ins Param : Type} {m : Mep Ins} (hinp : m.inputs = 0)
    (inputsL : List Param) (outputs : Nat) (processor : Ins → Param → Param → Param)
    (fuel : Nat) :
    executeRun m inputsL outputs processor fuel = specExecuteRun m inputsL outputs processor fuel := by
  unfold executeRun specExecuteRun
  cases hex : Mep.execute m inputsL outputs with
  | none => simp only [hex]
  | some it =>
    simp only [hex]
    exact runIter_eq_spec hinp inputsL processor fuel it.solve ⟨it.buff, []⟩

theorem opSolved_panic_oob {Ins Param : Type} (m : Mep Ins) (inputsL : List Param)
    (processor : Ins → Param → Param → Param) (fuel i : Nat) (st : EvalSt Param)
    (h1 : ¬ i < m.inputs) (h2 : st.buff[i - m.inputs]? = some none)
    (h3 : m.program[i]? = none) :
    opSolved m inputsL processor fuel i st = (none, st) := by
  cases fuel with
  | zero => rfl
  | succ fuel =>
    unfold opSolved
    rw [if_neg h1]
    simp only [h2, h3]

theorem solveIter_succ {Ins : Type} (m : Mep Ins) (o : Nat) :
    solveIter m (o + 1) = (m.program.length + m.inputs - (o + 1) + o) ::
      (List.range' (m.program.length + m.inputs - (o + 1)) o).reverse := by
  unfold solveIter
  rw [List.range'_concat, List.reverse_append]
  simp

theorem specExecuteRun_nodup {Ins Param : Type} (m : Mep Ins) (inputsL : List Param)
    (outputs : Nat) (processor : Ins → Param → Param → Param) (fuel : Nat)
    (hacyc : Acyclic m) :
    (specExecuteRun m inputsL outputs processor fuel).2.calls.Nodup := by
  unfold specExecuteRun
  split
  · exact List.nodup_nil
  · rename_i it heq
    unfold Mep.execute at heq
    split at heq
    · injection heq with h1
      subst h1
      rcases hrun : specRunIter m inputsL processor fuel (solveIter m outputs)
        ⟨List.replicate m.program.length none, []⟩ with ⟨res, st'⟩
      exact (specRunIter_inv hacyc inputsL processor fuel _ _ res st' hrun
        (evalInv_init m m.program.length)).1
    · exact absurd heq (by simp)

/-- Claim C4.  In one evaluation call — however many of the demanded
outputs get produced before the sequence ends or the call aborts — the
reduction function is invoked at most once per operation (the trace of
processor invocations holds no duplicate address), both for the source's
evaluator (`executeRun`, which on any genome of arity ≥ 1 aborts before
any invocation because of its global-index program read) and for the
spec's local-index evaluation rule (`specExecuteRun`), where the bound is
the genuine memoization guarantee under fan-in. -/
theorem reduce_invoked_at_most_once {Ins Param : Type} (m : Mep Ins) (inputsL : List Param)
    (outputs : Nat) (processor : Ins → Param → Param → Param) (fuel : Nat)
    (hacyc : Acyclic m) :
    (executeRun m inputsL outputs processor fuel).2.calls.Nodup ∧
    (specExecuteRun m inputsL outputs processor fuel).2.calls.Nodup := by
  refine ⟨?_, specExecuteRun_nodup m inputsL outputs processor fuel hacyc⟩
  by_cases hinp : m.inputs = 0
  · rw [executeRun_eq_spec hinp]
    exact specExecuteRun_nodup m inputsL outputs processor fuel hacyc
  · unfold executeRun
    split
    · exact List.nodup_nil
    · rename_i it heq
      unfold Mep.execute at heq
      split at heq
      · rename_i hle
        injection heq with h1
        subst h1
        dsimp only
        cases outputs with
        | zero =>
          have hsolve : solveIter m 0 = [] := by
            unfold solveIter
            simp
          rw [hsolve]
          simp only [runIter]
          exact List.nodup_nil
        | succ o =>
          have hhead := solveIter_succ m o
          rw [show m.program.length + m.inputs - (o + 1) + o =
                m.program.length + m.inputs - 1 from by omega] at hhead
          rw [hhead]
          have h1 : ¬ m.program.length + m.inputs - 1 < m.inputs := by omega
          have h2 : (⟨List.replicate m.program.length (none : Option Param), []⟩ :
              EvalSt Param).buff[m.program.length + m.inputs - 1 - m.inputs]? = some none := by
            dsimp only
            rw [show m.program.length + m.inputs - 1 - m.inputs = m.program.length - 1 from by omega]
            rw [List.getElem?_replicate, if_pos (by omega)]
          have h3 : m.program[m.program.length + m.inputs - 1]? = none :=
            List.getElem?_eq_none (by omega)
          unfold runIter
          rw [opSolved_panic_oob m inputsL processor fuel _ _ h1 h2 h3]
          exact List.nodup_nil
      · exact absurd heq (by simp)

theorem reduce_invoked_at_most_once_witness :
    (executeRun (⟨[⟨0, 0, 0⟩, ⟨1, 1, 1⟩, ⟨2, 2, 2⟩], 1, 1, 1⟩ : Mep Nat) [5] 1
        (fun _ a b => a + b) 10).2.calls.Nodup ∧
    (specExecuteRun (⟨[⟨0, 0, 0⟩, ⟨1, 1, 1⟩, ⟨2, 2, 2⟩], 1, 1, 1⟩ : Mep Nat) [5] 1
        (fun _ a b => a + b) 10).2.calls.Nodup :=
  reduce_invoked_at_most_once (⟨[⟨0, 0, 0⟩, ⟨1, 1, 1⟩, ⟨2, 2, 2⟩], 1, 1, 1⟩ : Mep Nat)
    [5] 1 (fun _ a b => a + b) 10 (acyclic_of_check _ (by decide))
